import Mathlib

/-!
Shallow embedding of the hubbub HTML5 treebuilder core
(src/treebuilder/treebuilder.c) and proofs about it.

Conventions of the embedding:
* Node handles produced by the tree sink are natural numbers; the sink is
  modelled as a log of the operations the treebuilder performs on it
  (clones, appends, unrefs, created text nodes) plus a fresh-handle counter.
  Per the documented sink contract, appending an element child returns the
  child itself (absorption applies only to text coalescing).
* The open-elements stack is the backing array of the C code, modelled as a
  total function from indices to frames; the logical top is current_node.
  Popping does not erase the vacated slot, exactly as in C.
* The doubly linked formatting list is modelled as a Lean list, head first.
* size_t / uint32_t arithmetic is Nat, with an explicit modulus where the C
  computation can wrap (the xmlns branch of adjust_foreign_attributes).
-/

namespace Hubbub

/--
Element types.  The enumeration itself lives in treebuilder/internal.h which
is not part of this repository; it is modelled from the spec: the enumeration
is ordered so that contiguous ranges encode category membership
(special up to WBR, scoping APPLET..TH, formatting A..U, phrasing above U),
no real element type has code 0 (code 0 marks an empty stack slot), and the
order of names inside each range follows the name_type_map table of
treebuilder.c.  RP, RT and UNKNOWN are phrasing elements placed after U.
-/
structure element_type where
  code : Nat
deriving DecidableEq, Repr

def EMPTY : element_type := ⟨0⟩
def ADDRESS : element_type := ⟨1⟩
def BODY : element_type := ⟨7⟩
def DD : element_type := ⟨12⟩
def DIV : element_type := ⟨14⟩
def DT : element_type := ⟨16⟩
def LI : element_type := ⟨35⟩
def OPTGROUP : element_type := ⟨44⟩
def OPTION : element_type := ⟨45⟩
def P : element_type := ⟨46⟩
def SELECT : element_type := ⟨51⟩
def WBR : element_type := ⟨61⟩
def APPLET : element_type := ⟨62⟩
def BUTTON : element_type := ⟨63⟩
def CAPTION : element_type := ⟨64⟩
def HTML : element_type := ⟨65⟩
def MARQUEE : element_type := ⟨66⟩
def OBJECT : element_type := ⟨67⟩
def TABLE : element_type := ⟨68⟩
def TD : element_type := ⟨69⟩
def TH : element_type := ⟨70⟩
def A : element_type := ⟨71⟩
def B : element_type := ⟨72⟩
def FONT : element_type := ⟨75⟩
def U : element_type := ⟨83⟩
def RP : element_type := ⟨84⟩
def RT : element_type := ⟨85⟩
def UNKNOWN : element_type := ⟨86⟩

/-- treebuilder.c is_special_element: type <= WBR. -/
def is_special_element (t : element_type) : Bool :=
  decide (t.code ≤ WBR.code)

/-- treebuilder.c is_scoping_element: APPLET <= type && type <= TH. -/
def is_scoping_element (t : element_type) : Bool :=
  decide (APPLET.code ≤ t.code ∧ t.code ≤ TH.code)

/-- treebuilder.c is_formatting_element: A <= type && type <= U. -/
def is_formatting_element (t : element_type) : Bool :=
  decide (A.code ≤ t.code ∧ t.code ≤ U.code)

/-- treebuilder.c is_phrasing_element: type > U. -/
def is_phrasing_element (t : element_type) : Bool :=
  decide (U.code < t.code)

/-- Namespace constants (hubbub.h, not in this repository; modelled from the
spec list of namespaces; only distinctness matters here). -/
def HUBBUB_NS_HTML : Nat := 1
def HUBBUB_NS_XLINK : Nat := 4
def HUBBUB_NS_XML : Nat := 5
def HUBBUB_NS_XMLNS : Nat := 6

/-- A frame of the stack of open elements: (ns, type, node handle). -/
structure element_context where
  ns : Nat
  type : element_type
  node : Nat
deriving DecidableEq, Repr

/-- An entry of the list of active formatting elements: details (ns, type,
node) plus the cached stack index (0 = stale / popped). -/
structure fmt_entry where
  ns : Nat
  type : element_type
  node : Nat
  stack_index : Nat
deriving DecidableEq, Repr

/-- The tree sink, modelled as an operation log plus a fresh-handle counter.
clones records (original, clone) pairs, appends records (parent, child)
pairs, unrefs records unreffed handles in order, texts records the byte
content of created text nodes. -/
structure Sink where
  next : Nat
  clones : List (Nat × Nat)
  appends : List (Nat × Nat)
  unrefs : List Nat
  texts : List (List Nat)
deriving DecidableEq, Repr

/-- clone_node (shallow): returns a fresh handle. -/
def sink_clone (s : Sink) (orig : Nat) : Nat × Sink :=
  (s.next, { s with next := s.next + 1, clones := s.clones ++ [(orig, s.next)] })

/-- append_child for element children: the sink returns the effective child,
which for an element is the child itself (text absorption does not apply). -/
def sink_append_child (s : Sink) (parent child : Nat) : Nat × Sink :=
  (child, { s with appends := s.appends ++ [(parent, child)] })

/-- unref_node. -/
def sink_unref (s : Sink) (node : Nat) : Sink :=
  { s with unrefs := s.unrefs ++ [node] }

/-- create_text: returns a fresh handle and logs the byte content. -/
def sink_create_text (s : Sink) (content : List Nat) : Nat × Sink :=
  (s.next, { s with next := s.next + 1, texts := s.texts ++ [content] })

/-- The treebuilder state (hubbub_treebuilder_context plus the sink and the
tokeniser input buffer).  The element stack is the C backing array: a total
function from slot index to frame, with current_node the logical top. -/
structure TB where
  input_buffer : List Nat
  element_stack : Nat → element_context
  current_node : Nat
  current_table : Nat
  formatting_list : List fmt_entry
  sink : Sink

/-- The empty initial state: slot 0 holds type 0 (treebuilder create). -/
def init_tb : TB where
  input_buffer := []
  element_stack := fun _ => ⟨0, EMPTY, 0⟩
  current_node := 0
  current_table := 0
  formatting_list := []
  sink := ⟨1, [], [], [], []⟩

/-- treebuilder.c element_stack_push (lines 1005-1036).  The slot written is
current_node + 1; pushing a TABLE updates current_table.  Allocation growth
always succeeds in the model, so the result Bool is true. -/
def element_stack_push (tb : TB) (ns : Nat) (ty : element_type) (node : Nat) :
    TB × Bool :=
  let slot := tb.current_node + 1
  ({ tb with
      element_stack := fun i => if i = slot then ⟨ns, ty, node⟩ else tb.element_stack i,
      current_node := slot,
      current_table := if ty = TABLE then slot else tb.current_table }, true)

/-- The downward scan for the next TABLE used when popping a TABLE
(element_stack_pop, lines 1054-1061): largest t in [1, m] whose frame is a
TABLE, else 0. -/
def stack_scan_table (stack : Nat → element_context) : Nat → Nat
  | 0 => 0
  | t + 1 => if (stack (t + 1)).type = TABLE then t + 1 else stack_scan_table stack t

/-- Result of element_stack_pop: the new state, the popped frame fields, and
the C return value. -/
structure PopResult where
  tb : TB
  ns : Nat
  type : element_type
  node : Nat
  ok : Bool

/-- treebuilder.c element_stack_pop (lines 1046-1090).  Popping a TABLE
recomputes current_table by the downward scan; popping a formatting element
or a scoping element other than HTML and TABLE zeroes the stack_index of
every formatting-list entry that referenced the popped slot.  The popped
slot itself is not erased.  The function performs no allocation and always
returns true. -/
def element_stack_pop (tb : TB) : PopResult :=
  let slot := tb.current_node
  let fr := tb.element_stack slot
  let ct := if fr.type = TABLE then stack_scan_table tb.element_stack (slot - 1)
            else tb.current_table
  let fl := if is_formatting_element fr.type ||
               (is_scoping_element fr.type && decide (fr.type ≠ HTML) &&
                decide (fr.type ≠ TABLE)) then
              tb.formatting_list.map
                (fun e => if e.stack_index = slot then { e with stack_index := 0 } else e)
            else tb.formatting_list
  let tb1 : TB :=
    { tb with current_table := ct, formatting_list := fl, current_node := slot - 1 }
  ⟨tb1, fr.ns, fr.type, fr.node, true⟩

/-- Loop body of element_stack_pop_until (lines 1097-1117): the C loop tests
the previously popped type before each pop (initially UNKNOWN).  The fuel
argument bounds the number of pops by the stack height; in C exhausting the
stack without finding the type is undefined (the caller must guarantee a
frame of the type exists), modelled here by the false result. -/
def pop_until_go (ty : element_type) : Nat → TB → element_type → TB × Bool
  | 0, tb, otype => if otype = ty then (tb, true) else (tb, false)
  | f + 1, tb, otype =>
    if otype = ty then (tb, true)
    else
      let p := element_stack_pop tb
      pop_until_go ty f { p.tb with sink := sink_unref p.tb.sink p.node } p.type

/-- treebuilder.c element_stack_pop_until. -/
def element_stack_pop_until (tb : TB) (ty : element_type) : TB × Bool :=
  pop_until_go ty tb.current_node tb UNKNOWN

/-- treebuilder.c current_node peek (lines 1125-1129). -/
def current_node_type (tb : TB) : element_type :=
  (tb.element_stack tb.current_node).type

/-- treebuilder.c prev_node (lines 1149-1156): UNKNOWN when only the sentinel
frame exists, otherwise the type one below the top. -/
def prev_node (tb : TB) : element_type :=
  if tb.current_node = 0 then UNKNOWN
  else (tb.element_stack (tb.current_node - 1)).type

/-- Scan of element_in_scope (treebuilder.c lines 550-580), downward from
slot n: a frame of the sought type wins, then a TABLE frame stops the scan,
then (outside table scope) any scoping element stops the scan. -/
def element_in_scope_go (stack : Nat → element_context) (ty : element_type)
    (in_table : Bool) : Nat → Nat
  | 0 => 0
  | n + 1 =>
    let nt := (stack (n + 1)).type
    if nt = ty then n + 1
    else if nt = TABLE then 0
    else if !in_table && is_scoping_element nt then 0
    else element_in_scope_go stack ty in_table n

/-- treebuilder.c element_in_scope. -/
def element_in_scope (tb : TB) (ty : element_type) (in_table : Bool) : Nat :=
  element_in_scope_go tb.element_stack ty in_table tb.current_node

/-- Boundary set as the claim words it: in the table variant the only
boundary is TABLE; in the default variant the boundaries are TABLE plus
every scoping element other than HTML and TABLE. -/
def scope_boundary_claim (in_table : Bool) (t : element_type) : Bool :=
  if in_table then decide (t = TABLE)
  else decide (t = TABLE) ||
       (is_scoping_element t && decide (t ≠ HTML) && decide (t ≠ TABLE))

/-- The scan as the claim words it: index of the first frame of the sought
type, 0 once a boundary or the bottom is reached. -/
def element_in_scope_claim_go (stack : Nat → element_context) (ty : element_type)
    (in_table : Bool) : Nat → Nat
  | 0 => 0
  | n + 1 =>
    let nt := (stack (n + 1)).type
    if nt = ty then n + 1
    else if scope_boundary_claim in_table nt then 0
    else element_in_scope_claim_go stack ty in_table n

/-- element_in_scope as the claim describes it. -/
def element_in_scope_claim (tb : TB) (ty : element_type) (in_table : Bool) : Nat :=
  element_in_scope_claim_go tb.element_stack ty in_table tb.current_node

/-- The set of types subject to implied end tags
(close_implied_end_tags, lines 793-795). -/
def implied_end_type (t : element_type) : Bool :=
  decide (t = DD ∨ t = DT ∨ t = LI ∨ t = OPTION ∨ t = OPTGROUP ∨ t = P ∨
          t = RP ∨ t = RT)

/-- The combined loop condition of close_implied_end_tags: the type is in
the implied set and is not a non-UNKNOWN except type (lines 793-801). -/
def ciet_eligible (except ty : element_type) : Bool :=
  implied_end_type ty && !(decide (except ≠ UNKNOWN) && decide (ty = except))

/-- Loop of close_implied_end_tags (lines 785-814): pop while the top type
is in the implied set, breaking when it equals a non-UNKNOWN except type;
each popped node is unreffed through the sink.  The fuel bounds the pops by
the stack height (each pop lowers current_node by one). -/
def close_implied_go (except : element_type) : Nat → TB → TB
  | 0, tb => tb
  | f + 1, tb =>
    if ciet_eligible except ((tb.element_stack tb.current_node).type) then
      let p := element_stack_pop tb
      close_implied_go except f { p.tb with sink := sink_unref p.tb.sink p.node }
    else tb

/-- treebuilder.c close_implied_end_tags. -/
def close_implied_end_tags (tb : TB) (except : element_type) : TB :=
  close_implied_go except tb.current_node tb

/-- A formatting-list entry is stale when it is not a marker (scoping type)
and its stack index is 0 (the entry was popped off the stack). -/
def is_stale (e : fmt_entry) : Bool :=
  !is_scoping_element e.type && decide (e.stack_index = 0)

/-- Split a formatting list into the part up to and including the last
marker-or-open entry, and the maximal stale suffix after it.  This is the
backward walk of reconstruct_active_formatting_list (lines 594-608): the
walk stops at the last entry that is a marker or still open and reconstructs
everything after it. -/
def staleSplit : List fmt_entry → List fmt_entry × List fmt_entry
  | [] => ([], [])
  | e :: rest =>
    let p := staleSplit rest
    if p.1.isEmpty && is_stale e then ([], e :: p.2) else (e :: p.1, p.2)

/-- One iteration of the forward loop of reconstruct_active_formatting_list
(lines 610-669): clone the entry node shallowly, append the clone to the
current node, push a stack frame carrying the handle returned by
append_child, replace the list entry by (type, clone, new current_node),
and unref the replaced node.  Returns the new state and the new entry. -/
def reconstruct_step (tb : TB) (e : fmt_entry) : TB × fmt_entry :=
  let c := sink_clone tb.sink e.node
  let parent := (tb.element_stack tb.current_node).node
  let a := sink_append_child c.2 parent c.1
  let p := element_stack_push { tb with sink := a.2 } e.ns e.type a.1
  let tb2 := { p.1 with sink := sink_unref p.1.sink e.node }
  (tb2, ⟨e.ns, e.type, c.1, p.1.current_node⟩)

/-- The forward loop over the stale suffix. -/
def reconstruct_go : TB → List fmt_entry → TB × List fmt_entry
  | tb, [] => (tb, [])
  | tb, e :: rest =>
    let s := reconstruct_step tb e
    let r := reconstruct_go s.1 rest
    (r.1, s.2 :: r.2)

/-- treebuilder.c reconstruct_active_formatting_list (lines 587-670).  The C
code returns early when the list is empty or the tail entry is a marker or
still open; both are exactly the cases in which the maximal stale suffix is
empty (lemma staleSplit_nil_of_tail below). -/
def reconstruct_active_formatting_list (tb : TB) : TB :=
  if tb.formatting_list.isEmpty then tb
  else
    let p := staleSplit tb.formatting_list
    if p.2.isEmpty then tb
    else
      let r := reconstruct_go tb p.2
      { r.1 with formatting_list := p.1 ++ r.2 }

/-- Tailward removal loop of clear_active_formatting_list_to_marker
(lines 677-702), acting on the reversed list (tail of the C list first):
remove and unref entries until, and including, the first scoping entry. -/
def clear_go : List fmt_entry → Sink → List fmt_entry × Sink
  | [], s => ([], s)
  | e :: rest, s =>
    let s1 := sink_unref s e.node
    if is_scoping_element e.type then (rest, s1) else clear_go rest s1

/-- treebuilder.c clear_active_formatting_list_to_marker. -/
def clear_active_formatting_list_to_marker (tb : TB) : TB :=
  let r := clear_go tb.formatting_list.reverse tb.sink
  { tb with formatting_list := r.1.reverse, sink := r.2 }

/-- treebuilder.c formatting_list_append (lines 1169-1194).  Allocation
always succeeds in the model.  (The C code leaves details.ns uninitialised;
the model takes it as a parameter.) -/
def formatting_list_append (tb : TB) (ns : Nat) (ty : element_type)
    (node : Nat) (stack_index : Nat) : TB × Bool :=
  ({ tb with formatting_list :=
      tb.formatting_list ++ [⟨ns, ty, node, stack_index⟩] }, true)

/-- treebuilder.c formatting_list_insert (lines 1207-1244), with the
(prev, next) pointer pair expressed as a position in the list. -/
def formatting_list_insert_at (tb : TB) (pos : Nat) (ns : Nat)
    (ty : element_type) (node : Nat) (stack_index : Nat) : TB × Bool :=
  ({ tb with formatting_list :=
      tb.formatting_list.take pos ++
        ⟨ns, ty, node, stack_index⟩ :: tb.formatting_list.drop pos }, true)

/-- treebuilder.c formatting_list_remove (lines 1257-1278), with the entry
pointer expressed as a position in the list. -/
def formatting_list_remove_at (tb : TB) (pos : Nat) : TB :=
  { tb with formatting_list := tb.formatting_list.eraseIdx pos }

/-- treebuilder.c formatting_list_replace (lines 1293-1309): in-place swap
of type, node and stack_index (ns is left as it was).  The C entry pointer
always refers to a live entry; an out-of-range position leaves the state
unchanged. -/
def formatting_list_replace_at (tb : TB) (pos : Nat) (ty : element_type)
    (node : Nat) (stack_index : Nat) : TB :=
  match tb.formatting_list.get? pos with
  | none => tb
  | some old =>
    let e2 : fmt_entry := { old with type := ty, node := node, stack_index := stack_index }
    { tb with formatting_list := tb.formatting_list.set pos e2 }

/-- An offset+length string payload into the tokeniser input buffer
(hubbub_string with HUBBUB_STRING_OFF). -/
structure hubbub_string where
  off : Nat
  len : Nat
deriving DecidableEq, Repr

/-- Resolve an offset string against the input buffer. -/
def resolve_string (buffer : List Nat) (s : hubbub_string) : List Nat :=
  (buffer.drop s.off).take s.len

/-- treebuilder.c append_text (lines 879-910): create a text node, append it
to the current node, unref the append result and the created node. -/
def append_text (tb : TB) (s : hubbub_string) : TB :=
  let content := resolve_string tb.input_buffer s
  let t := sink_create_text tb.sink content
  let parent := (tb.element_stack tb.current_node).node
  let a := sink_append_child t.2 parent t.1
  { tb with sink := sink_unref (sink_unref a.2 a.1) t.1 }

/-- The whitespace test of process_characters_expect_whitespace
(lines 418-419): 0x09, 0x0A, 0x0C, 0x20. -/
def is_ws_byte (b : Nat) : Bool :=
  decide (b = 0x09 ∨ b = 0x0A ∨ b = 0x0C ∨ b = 0x20)

/-- Length of the leading whitespace run (the scan of lines 417-421). -/
def leading_ws : List Nat → Nat
  | [] => 0
  | b :: rest => if is_ws_byte b then leading_ws rest + 1 else 0

/-- treebuilder.c process_characters_expect_whitespace (lines 407-442).
Returns the new state, the updated token payload and the reprocess flag.
Note the inserted string is built with length len - c (line 429). -/
def process_characters_expect_whitespace (tb : TB) (tok : hubbub_string)
    (insert_into_current_node : Bool) : TB × hubbub_string × Bool :=
  let c := leading_ws (resolve_string tb.input_buffer tok)
  if c ≠ tok.len then
    let tb1 := if 0 < c ∧ insert_into_current_node then
        append_text tb ⟨tok.off, tok.len - c⟩
      else tb
    (tb1, ⟨tok.off + c, tok.len - c⟩, true)
  else (tb, tok, false)

/-- A tag attribute: namespace and the (offset, length) of its name in the
input buffer (the value plays no role in adjust_foreign_attributes). -/
structure hubbub_attribute where
  ns : Nat
  name_off : Nat
  name_len : Nat
deriving DecidableEq, Repr

/-- Bytes of the buffer at [off, off + len). -/
def bytes_at (buffer : List Nat) (off len : Nat) : List Nat :=
  (buffer.drop off).take len

def xlink_colon_bytes : List Nat := [120, 108, 105, 110, 107, 58]
def xml_colon_bytes : List Nat := [120, 109, 108, 58]
def xmlns_bytes : List Nat := [120, 109, 108, 110, 115]
def xmlns_xlink_bytes : List Nat :=
  [120, 109, 108, 110, 115, 58, 120, 108, 105, 110, 107]

/-- The xlink suffixes recognised at lines 1334-1346; the first is the
misspelt actutate, exactly as in the source. -/
def xlink_attr_names : List (List Nat) :=
  [[97, 99, 116, 117, 116, 97, 116, 101],
   [97, 114, 99, 114, 111, 108, 101],
   [104, 114, 101, 102],
   [114, 111, 108, 101],
   [115, 104, 111, 119],
   [116, 105, 116, 108, 101],
   [116, 121, 112, 101]]

/-- The xml suffixes recognised at lines 1357-1361: base, lang, space. -/
def xml_attr_names : List (List Nat) :=
  [[98, 97, 115, 101], [108, 97, 110, 103], [115, 112, 97, 99, 101]]

/-- Cardinality of size_t. -/
def SIZE_T_CARD : Nat := 2 ^ 64

/-- Per-attribute transformation of adjust_foreign_attributes
(lines 1320-1376).  hubbub_string_match compares length then bytes, which
the byte-slice equalities capture.  In the first two branches the length
subtractions are guarded by the length tests; in the xmlns branch
name.len -= 6 is an unguarded size_t subtraction, modelled with the explicit
modulus (name.data.off is a uint32 whose increment by 6 cannot wrap for any
name actually inside the buffer, so it is left plain). -/
def adjust_attr (buffer : List Nat) (a : hubbub_attribute) : hubbub_attribute :=
  if 10 ≤ a.name_len ∧ bytes_at buffer a.name_off 6 = xlink_colon_bytes then
    if bytes_at buffer (a.name_off + 6) (a.name_len - 6) ∈ xlink_attr_names then
      { ns := HUBBUB_NS_XLINK, name_off := a.name_off + 6, name_len := a.name_len - 6 }
    else a
  else if 8 ≤ a.name_len ∧ bytes_at buffer a.name_off 4 = xml_colon_bytes then
    if bytes_at buffer (a.name_off + 4) (a.name_len - 4) ∈ xml_attr_names then
      { ns := HUBBUB_NS_XML, name_off := a.name_off + 4, name_len := a.name_len - 4 }
    else a
  else if bytes_at buffer a.name_off a.name_len = xmlns_bytes ∨
          bytes_at buffer a.name_off a.name_len = xmlns_xlink_bytes then
    { ns := HUBBUB_NS_XMLNS,
      name_off := a.name_off + 6,
      name_len := (a.name_len + (SIZE_T_CARD - 6)) % SIZE_T_CARD }
  else a

/-- treebuilder.c adjust_foreign_attributes: the per-attribute map over a
whole tag. -/
def adjust_foreign_attributes (buffer : List Nat)
    (attrs : List hubbub_attribute) : List hubbub_attribute :=
  attrs.map (adjust_attr buffer)

/-! Expected-value helpers used to state the theorems. -/

/-- Default formatting-list entry, used only with in-range indices. -/
def dflt_entry : fmt_entry := ⟨0, EMPTY, 0, 0⟩

/-- The formatting-list entries reconstruction is expected to produce for a
stale suffix: per stale entry a clone handle (fresh handles counting up from
x) and a stack index counting up from n + 1. -/
def recon_entries (x n : Nat) : List fmt_entry → List fmt_entry
  | [] => []
  | e :: r => ⟨e.ns, e.type, x, n + 1⟩ :: recon_entries (x + 1) (n + 1) r

/-- The clone log reconstruction is expected to produce: exactly one shallow
clone per stale entry, of the node of that entry, yielding the fresh handles. -/
def recon_clones (x : Nat) : List fmt_entry → List (Nat × Nat)
  | [] => []
  | e :: r => (e.node, x) :: recon_clones (x + 1) r

/-- The append log reconstruction is expected to produce: the first clone is
appended to the node of the frame that was current on entry, and each later
clone to the previous clone. -/
def recon_appends (parent x : Nat) : List fmt_entry → List (Nat × Nat)
  | [] => []
  | _ :: r => (parent, x) :: recon_appends x (x + 1) r

/-- Node handles of the frames at top, top-1, ..., top-(k-1): the order in
which close_implied_end_tags unrefs the popped nodes. -/
def nodes_down (stack : Nat → element_context) : Nat → Nat → List Nat
  | _, 0 => []
  | top, k + 1 => (stack top).node :: nodes_down stack (top - 1) k

/-- A sink equal to s except for extra unrefs appended to the log. -/
def sink_add_unrefs (s : Sink) (l : List Nat) : Sink :=
  { s with unrefs := s.unrefs ++ l }

/-- The combined effect on the state of popping the top frame of a type
that is neither TABLE nor formatting nor scoping, then unreffing the popped
node: current_node drops by one and the unref is logged. -/
def pop_unref_step (tb : TB) : TB :=
  { tb with
      current_node := tb.current_node - 1,
      sink := sink_unref tb.sink ((tb.element_stack tb.current_node).node) }

/-- The per-entry invariant of claim C4: the cached stack index is 0 (stale)
or designates a live frame carrying the same type and node as the entry. -/
def entry_matches (tb : TB) (e : fmt_entry) : Prop :=
  e.stack_index = 0 ∨
  (1 ≤ e.stack_index ∧ e.stack_index ≤ tb.current_node ∧
   (tb.element_stack e.stack_index).type = e.type ∧
   (tb.element_stack e.stack_index).node = e.node)

/-- Types admissible in the formatting list: formatting elements, or scoping
elements other than HTML and TABLE acting as markers (the code assumes HTML
and TABLE are never inserted, line 596). -/
def entry_listable (e : fmt_entry) : Prop :=
  is_formatting_element e.type = true ∨
  (is_scoping_element e.type = true ∧ e.type ≠ HTML ∧ e.type ≠ TABLE)

/-- The formatting-list invariant: every entry matches and is of an
admissible type. -/
def fmt_inv (tb : TB) : Prop :=
  ∀ e ∈ tb.formatting_list, entry_matches tb e ∧ entry_listable e

/-- The current_table invariant of claim C6: current_table is bounded by the
top, is 0 or designates a TABLE frame, and no live frame above it is a
TABLE. -/
def table_inv (tb : TB) : Prop :=
  tb.current_table ≤ tb.current_node ∧
  (tb.current_table = 0 ∨
   (1 ≤ tb.current_table ∧ (tb.element_stack tb.current_table).type = TABLE)) ∧
  ∀ j, tb.current_table < j → j ≤ tb.current_node → (tb.element_stack j).type ≠ TABLE

/-- States reachable from the initial state by push and pop alone (claim
C6).  Pops are taken in states with a frame above the sentinel, as the C
callers guarantee (the code asserts current_node stays non-negative). -/
inductive StackReach : TB → Prop
  | init : StackReach init_tb
  | push (tb : TB) (ns : Nat) (ty : element_type) (node : Nat) :
      StackReach tb → StackReach (element_stack_push tb ns ty node).1
  | pop (tb : TB) : StackReach tb → 1 ≤ tb.current_node →
      StackReach (element_stack_pop tb).tb

/-- States reachable by the full operation set of claim C4.  Entries enter
the list (append, insert, replace) carrying a type the list may hold and a
stack index that is 0 or designates the matching frame, as at every call
site of these functions; pops require a frame above the sentinel. -/
inductive TBReach : TB → Prop
  | init : TBReach init_tb
  | push (tb : TB) (ns : Nat) (ty : element_type) (node : Nat) :
      TBReach tb → TBReach (element_stack_push tb ns ty node).1
  | pop (tb : TB) : TBReach tb → 1 ≤ tb.current_node →
      TBReach (element_stack_pop tb).tb
  | pop_until (tb : TB) (ty : element_type) : TBReach tb →
      TBReach (element_stack_pop_until tb ty).1
  | fmt_append (tb : TB) (ns : Nat) (ty : element_type) (node idx : Nat) :
      TBReach tb → entry_matches tb ⟨ns, ty, node, idx⟩ →
      entry_listable ⟨ns, ty, node, idx⟩ →
      TBReach (formatting_list_append tb ns ty node idx).1
  | fmt_insert (tb : TB) (pos ns : Nat) (ty : element_type) (node idx : Nat) :
      TBReach tb → entry_matches tb ⟨ns, ty, node, idx⟩ →
      entry_listable ⟨ns, ty, node, idx⟩ →
      TBReach (formatting_list_insert_at tb pos ns ty node idx).1
  | fmt_remove (tb : TB) (pos : Nat) : TBReach tb →
      TBReach (formatting_list_remove_at tb pos)
  | fmt_replace (tb : TB) (pos : Nat) (ty : element_type) (node idx : Nat) :
      TBReach tb → entry_matches tb ⟨0, ty, node, idx⟩ →
      entry_listable ⟨0, ty, node, idx⟩ →
      TBReach (formatting_list_replace_at tb pos ty node idx)
  | reconstruct (tb : TB) : TBReach tb →
      TBReach (reconstruct_active_formatting_list tb)
  | clear (tb : TB) : TBReach tb →
      TBReach (clear_active_formatting_list_to_marker tb)

/-! Concrete states used by the witnesses. -/

/-- A small state: html/body open, input buffer holding a space, then two
letters. -/
def wtb : TB where
  input_buffer := [32, 97, 98]
  element_stack := fun i =>
    if i = 0 then ⟨1, HTML, 10⟩ else if i = 1 then ⟨1, BODY, 11⟩
    else ⟨0, EMPTY, 0⟩
  current_node := 1
  current_table := 0
  formatting_list := []
  sink := ⟨100, [], [], [], []⟩

/-- wtb with one stale B entry in the formatting list. -/
def wtb_fmt : TB := { wtb with formatting_list := [⟨1, B, 50, 0⟩] }

/-- wtb with a formatting list holding a stale B, a CAPTION marker and an
open FONT. -/
def wtb_clear : TB :=
  { wtb with formatting_list := [⟨1, B, 50, 0⟩, ⟨1, CAPTION, 51, 1⟩, ⟨1, FONT, 52, 2⟩] }

/-- html/body/table/p open. -/
def wtb_scope : TB :=
  { wtb with
    element_stack := fun i =>
      if i = 0 then ⟨1, HTML, 10⟩ else if i = 1 then ⟨1, BODY, 11⟩
      else if i = 2 then ⟨1, TABLE, 12⟩ else if i = 3 then ⟨1, P, 13⟩
      else ⟨0, EMPTY, 0⟩
    current_node := 3
    current_table := 2 }

/-- html/body/p/li open. -/
def wtb_implied : TB :=
  { wtb with
    element_stack := fun i =>
      if i = 0 then ⟨1, HTML, 10⟩ else if i = 1 then ⟨1, BODY, 11⟩
      else if i = 2 then ⟨1, P, 13⟩ else if i = 3 then ⟨1, LI, 14⟩
      else ⟨0, EMPTY, 0⟩
    current_node := 3 }

/-! Projection lemmas for the stack operations. -/

theorem pop_stack (tb : TB) :
    (element_stack_pop tb).tb.element_stack = tb.element_stack := rfl

theorem pop_cn (tb : TB) :
    (element_stack_pop tb).tb.current_node = tb.current_node - 1 := rfl

theorem pop_type_eq (tb : TB) :
    (element_stack_pop tb).type = (tb.element_stack tb.current_node).type := rfl

theorem pop_node_eq (tb : TB) :
    (element_stack_pop tb).node = (tb.element_stack tb.current_node).node := rfl

theorem pop_buffer (tb : TB) :
    (element_stack_pop tb).tb.input_buffer = tb.input_buffer := rfl

/-- C9: for every treebuilder state with at least one frame above the
sentinel, element_stack_pop reports success (its false result, reserved for
memory exhaustion, is never produced since pop performs no allocation), and
element_stack_pop_until reports success whenever a frame of the sought type
is on the stack, so callers never observe a failed pop. -/
theorem C9_pop_never_fails (tb : TB) (h : 1 ≤ tb.current_node) :
    (element_stack_pop tb).ok = true ∧
    ∀ ty : element_type,
      (∃ i, 1 ≤ i ∧ i ≤ tb.current_node ∧ (tb.element_stack i).type = ty) →
      (element_stack_pop_until tb ty).2 = true := by
  have main : ∀ (fuel : Nat) (tb2 : TB) (otype ty : element_type),
      tb2.current_node ≤ fuel →
      (otype = ty ∨
        ∃ i, 1 ≤ i ∧ i ≤ tb2.current_node ∧ (tb2.element_stack i).type = ty) →
      (pop_until_go ty fuel tb2 otype).2 = true := by
    intro fuel
    induction fuel with
    | zero =>
      intro tb2 otype ty hf hex
      rcases hex with ho | ⟨i, h1, h2, _⟩
      · simp [pop_until_go, ho]
      · omega
    | succ f ih =>
      intro tb2 otype ty hf hex
      by_cases ho : otype = ty
      · simp [pop_until_go, ho]
      · rcases hex with ho2 | ⟨i, h1, h2, h3⟩
        · exact absurd ho2 ho
        · rw [pop_until_go, if_neg ho]
          by_cases hi : i = tb2.current_node
          · apply ih
            · rw [pop_cn]; omega
            · left; rw [pop_type_eq, ← hi]; exact h3
          · apply ih
            · rw [pop_cn]; omega
            · right
              refine ⟨i, h1, ?_, ?_⟩
              · rw [pop_cn]; omega
              · rw [pop_stack]; exact h3
  refine ⟨rfl, ?_⟩
  intro ty hex
  exact main tb.current_node tb UNKNOWN ty le_rfl (Or.inr hex)

/-- Witness for C9 at the html/body state: both hypotheses hold at BODY. -/
theorem C9_pop_never_fails_witness :
    (element_stack_pop wtb).ok = true ∧
    (element_stack_pop_until wtb BODY).2 = true := by
  have h := C9_pop_never_fails wtb (by decide)
  exact ⟨h.1, h.2 BODY ⟨1, by decide, by decide, by decide⟩⟩

/-- C10: prev_node yields UNKNOWN when only the sentinel frame exists
(current_node = 0) and otherwise the type stored at current_node - 1; the
only slot it reads is current_node - 1, never below slot 0. -/
theorem C10_prev_node_spec (tb : TB) :
    (tb.current_node = 0 → prev_node tb = UNKNOWN) ∧
    (1 ≤ tb.current_node →
      prev_node tb = (tb.element_stack (tb.current_node - 1)).type) := by
  constructor
  · intro h; simp [prev_node, h]
  · intro h
    have h0 : tb.current_node ≠ 0 := by omega
    simp [prev_node, h0]

/-- Witness for C10: the sentinel-only initial state and the html/body
state. -/
theorem C10_prev_node_spec_witness :
    prev_node init_tb = UNKNOWN ∧
    prev_node wtb = (wtb.element_stack 0).type :=
  ⟨(C10_prev_node_spec init_tb).1 rfl, (C10_prev_node_spec wtb).2 (by decide)⟩

/-- C2 (code bug, evaluated): on the character payload 0x20 0x61 0x62
(" ab", leading whitespace run k = 1, length 3) with the insert flag set,
the code inserts a text node with the first len - k = 2 bytes " a" — not
the first k bytes " " the claim states — because line 429 sets the
temporary string length to len - c instead of c, contradicting the
stated purpose of the function, inserting only whitespace.  The token update
(offset + k, length - k) and the reprocess result match the claim. -/
theorem C2_whitespace_insert_bug :
    leading_ws (resolve_string wtb.input_buffer ⟨0, 3⟩) = 1 ∧
    (process_characters_expect_whitespace wtb ⟨0, 3⟩ true).1.sink.texts =
      [[32, 97]] ∧
    (process_characters_expect_whitespace wtb ⟨0, 3⟩ true).2.1 = ⟨1, 2⟩ ∧
    (process_characters_expect_whitespace wtb ⟨0, 3⟩ true).2.2 = true ∧
    [32, 97] ≠ List.take 1 (resolve_string wtb.input_buffer ⟨0, 3⟩) := by
  refine ⟨rfl, rfl, rfl, rfl, by decide⟩

/-- C3 (code bug, evaluated): the xlink:, xml: and xmlns:xlink cases strip
exactly the prefix and set the namespace as the claim states, but for an
attribute named exactly xmlns (length 5) the unguarded size_t subtraction
name.len -= 6 wraps to 2^64 - 1 and the offset is advanced past the end of
the name, instead of the length dropping by the length of the matched
name. -/
theorem C3_adjust_foreign_attributes_xmlns_underflow :
    adjust_foreign_attributes xmlns_bytes [⟨0, 0, 5⟩] =
      [⟨HUBBUB_NS_XMLNS, 6, SIZE_T_CARD - 1⟩] ∧
    SIZE_T_CARD - 1 ≠ 0 ∧ 5 < 6 ∧
    adjust_foreign_attributes
        [120, 108, 105, 110, 107, 58, 104, 114, 101, 102] [⟨0, 0, 10⟩] =
      [⟨HUBBUB_NS_XLINK, 6, 4⟩] ∧
    adjust_foreign_attributes
        [120, 109, 108, 58, 108, 97, 110, 103] [⟨0, 0, 8⟩] =
      [⟨HUBBUB_NS_XML, 4, 4⟩] ∧
    adjust_foreign_attributes xmlns_xlink_bytes [⟨0, 0, 11⟩] =
      [⟨HUBBUB_NS_XMLNS, 6, 5⟩] ∧
    adjust_foreign_attributes [104, 114, 101, 102] [⟨0, 0, 4⟩] =
      [⟨0, 0, 4⟩] := by
  refine ⟨?_, by decide, by decide, rfl, rfl, rfl, rfl⟩
  rfl

theorem pop_sink (tb : TB) :
    (element_stack_pop tb).tb.sink = tb.sink := rfl

/-- C5: under the structural fact that HTML never sits above the sentinel
slot (the code relies on it, lines 570-574, and HTML is created only as
frame 0), element_in_scope computes exactly the scan the claim describes:
first frame of the sought type wins, the scan stops with 0 at a boundary or
at the bottom, the boundaries being TABLE alone in the table variant and
TABLE plus every scoping element other than HTML and TABLE otherwise. -/
theorem C5_element_in_scope_spec (tb : TB) (ty : element_type) (in_table : Bool)
    (hhtml : ∀ i, 1 ≤ i → i ≤ tb.current_node →
      (tb.element_stack i).type ≠ HTML) :
    element_in_scope tb ty in_table = element_in_scope_claim tb ty in_table := by
  have main : ∀ n, (∀ i, 1 ≤ i → i ≤ n → (tb.element_stack i).type ≠ HTML) →
      element_in_scope_go tb.element_stack ty in_table n =
      element_in_scope_claim_go tb.element_stack ty in_table n := by
    intro n
    induction n with
    | zero => intro _; rfl
    | succ m ih =>
      intro hh
      have hrec := ih (fun i hi1 hi2 => hh i hi1 (by omega))
      simp only [element_in_scope_go, element_in_scope_claim_go]
      by_cases h1 : (tb.element_stack (m + 1)).type = ty
      · simp [h1]
      · by_cases h2 : (tb.element_stack (m + 1)).type = TABLE
        · cases in_table <;> simp [h1, h2, scope_boundary_claim]
        · have h4 : (tb.element_stack (m + 1)).type ≠ HTML :=
            hh (m + 1) (by omega) le_rfl
          cases in_table with
          | false =>
            by_cases h3 : is_scoping_element ((tb.element_stack (m + 1)).type) = true
            · simp [h1, h2, h3, h4, scope_boundary_claim]
            · simp [h1, h2, h3, h4, scope_boundary_claim, hrec]
          | true =>
            simp [h1, h2, scope_boundary_claim, hrec]
  exact main tb.current_node hhtml

/-- Witness for C5 on the html/body/table/p stack. -/
theorem C5_element_in_scope_spec_witness :
    element_in_scope wtb_scope BODY false =
      element_in_scope_claim wtb_scope BODY false :=
  C5_element_in_scope_spec wtb_scope BODY false (by
    intro i h1 h2
    have h3 : i ≤ 3 := h2
    interval_cases i <;> decide)

/-- A type in the implied-end-tag set is not TABLE, not a formatting
element and not a scoping element, so popping it touches neither
current_table nor the formatting list. -/
theorem implied_plain (t : element_type) (h : implied_end_type t = true) :
    t ≠ TABLE ∧ is_formatting_element t = false ∧ is_scoping_element t = false := by
  have h2 := of_decide_eq_true h
  rcases h2 with h3 | h3 | h3 | h3 | h3 | h3 | h3 | h3 <;> subst h3 <;>
    exact ⟨by decide, by decide, by decide⟩

/-- Popping a frame of an implied-end-tag type only lowers current_node. -/
theorem pop_of_implied (tb : TB)
    (h : implied_end_type ((tb.element_stack tb.current_node).type) = true) :
    (element_stack_pop tb).tb = { tb with current_node := tb.current_node - 1 } := by
  obtain ⟨hT, hF, hS⟩ := implied_plain _ h
  cases tb with
  | mk buf stack cn ct fl sink =>
    simp_all [element_stack_pop]

/-- Loop characterisation for close_implied_end_tags: with enough fuel and a
sentinel frame outside the implied set, the loop leaves the stack array,
current_table, the formatting list and the buffer alone, pops exactly the
maximal run of eligible frames, and unrefs exactly the popped nodes from the
top downwards. -/
theorem close_implied_go_spec (except : element_type) :
    ∀ (fuel : Nat) (tb : TB),
      tb.current_node ≤ fuel →
      implied_end_type ((tb.element_stack 0).type) = false →
      (close_implied_go except fuel tb).element_stack = tb.element_stack ∧
      (close_implied_go except fuel tb).current_table = tb.current_table ∧
      (close_implied_go except fuel tb).formatting_list = tb.formatting_list ∧
      (close_implied_go except fuel tb).input_buffer = tb.input_buffer ∧
      (close_implied_go except fuel tb).current_node ≤ tb.current_node ∧
      (∀ i, (close_implied_go except fuel tb).current_node < i →
        i ≤ tb.current_node →
        ciet_eligible except ((tb.element_stack i).type) = true) ∧
      ciet_eligible except
        ((tb.element_stack (close_implied_go except fuel tb).current_node).type) =
          false ∧
      (close_implied_go except fuel tb).sink =
        sink_add_unrefs tb.sink
          (nodes_down tb.element_stack tb.current_node
            (tb.current_node - (close_implied_go except fuel tb).current_node)) := by
  intro fuel
  induction fuel with
  | zero =>
    intro tb hf h0
    have hcn : tb.current_node = 0 := by omega
    refine ⟨rfl, rfl, rfl, rfl, le_rfl, ?_, ?_, ?_⟩
    · intro i hi1 hi2
      simp only [close_implied_go] at hi1
      omega
    · simp [close_implied_go, hcn, ciet_eligible, h0]
    · simp [close_implied_go, nodes_down, sink_add_unrefs]
  | succ f ih =>
    intro tb hf h0
    by_cases helig :
        ciet_eligible except ((tb.element_stack tb.current_node).type) = true
    · have himp : implied_end_type ((tb.element_stack tb.current_node).type) = true := by
        have h2 := helig
        unfold ciet_eligible at h2
        exact (Bool.and_eq_true _ _ |>.mp h2).1
      have hcn1 : 1 ≤ tb.current_node := by
        by_contra hc
        have hcz : tb.current_node = 0 := by omega
        rw [hcz] at himp
        rw [himp] at h0
        exact absurd h0 (by decide)
      obtain ⟨hT, hF, hS⟩ := implied_plain _ himp
      have hstep : close_implied_go except (f + 1) tb =
          close_implied_go except f (pop_unref_step tb) := by
        have hx : (element_stack_pop tb).tb =
            { tb with current_node := tb.current_node - 1 } :=
          pop_of_implied tb himp
        simp only [close_implied_go]
        rw [if_pos helig, pop_sink, pop_node_eq, hx]
        rfl
      have hih := ih (pop_unref_step tb) (by simp only [pop_unref_step]; omega) h0
      obtain ⟨e1, e2, e3, e4, e5, e6, e7, e8⟩ := hih
      have e5b : (close_implied_go except f (pop_unref_step tb)).current_node ≤
          tb.current_node - 1 := e5
      rw [hstep]
      refine ⟨e1, e2, e3, e4, by omega, ?_, e7, ?_⟩
      · intro i hi1 hi2
        by_cases hic : i = tb.current_node
        · rw [hic]; exact helig
        · exact e6 i hi1 (by simp only [pop_unref_step]; omega)
      · rw [e8]
        have hk : tb.current_node -
            (close_implied_go except f (pop_unref_step tb)).current_node =
            (tb.current_node - 1 -
              (close_implied_go except f (pop_unref_step tb)).current_node) + 1 := by
          omega
        rw [hk]
        simp [pop_unref_step, sink_unref, nodes_down, sink_add_unrefs]
    · have hstop : close_implied_go except (f + 1) tb = tb := by
        unfold close_implied_go
        rw [if_neg (by simpa using helig)]
      rw [hstop]
      refine ⟨rfl, rfl, rfl, rfl, le_rfl, ?_, ?_, ?_⟩
      · intro i hi1 hi2; omega
      · simpa using helig
      · simp [nodes_down, sink_add_unrefs]

theorem ciet_eligible_true_elim (except t : element_type)
    (h : ciet_eligible except t = true) :
    implied_end_type t = true ∧ (except = UNKNOWN ∨ t ≠ except) := by
  have h1 := (Bool.and_eq_true _ _).mp h
  refine ⟨h1.1, ?_⟩
  have h2 := h1.2
  rw [Bool.not_eq_true'] at h2
  by_cases he : except = UNKNOWN
  · exact Or.inl he
  · right
    intro hte
    rw [show decide (except ≠ UNKNOWN) = true from by simp [he],
        show decide (t = except) = true from by simp [hte]] at h2
    simp at h2

theorem ciet_eligible_false_elim (except t : element_type)
    (h : ciet_eligible except t = false) :
    implied_end_type t = false ∨ (t = except ∧ except ≠ UNKNOWN) := by
  by_cases hi : implied_end_type t = true
  · right
    simp [ciet_eligible, hi] at h
    exact ⟨h.2, h.1⟩
  · left
    simpa using hi

/-- C7: with the sentinel frame outside the implied set (it holds type 0 or
HTML in every real state), close_implied_end_tags pops exactly the frames of
the maximal top run whose types are in {DD, DT, LI, OPTION, OPTGROUP, P, RP,
RT} and, when except is not UNKNOWN, differ from except; each popped node is
unreffed through the sink exactly once (the unref log grows by exactly the
popped nodes, top first); the stack array, current_table and the formatting
list are untouched; and on return the top type is outside the set or equals
the (non-UNKNOWN) except type. -/
theorem C7_close_implied_end_tags_spec (tb : TB) (except : element_type)
    (h0 : implied_end_type ((tb.element_stack 0).type) = false) :
    (close_implied_end_tags tb except).element_stack = tb.element_stack ∧
    (close_implied_end_tags tb except).current_table = tb.current_table ∧
    (close_implied_end_tags tb except).formatting_list = tb.formatting_list ∧
    (close_implied_end_tags tb except).current_node ≤ tb.current_node ∧
    (∀ i, (close_implied_end_tags tb except).current_node < i →
      i ≤ tb.current_node →
      implied_end_type ((tb.element_stack i).type) = true ∧
      (except = UNKNOWN ∨ (tb.element_stack i).type ≠ except)) ∧
    (implied_end_type
        ((tb.element_stack (close_implied_end_tags tb except).current_node).type) =
          false ∨
      ((tb.element_stack (close_implied_end_tags tb except).current_node).type =
          except ∧ except ≠ UNKNOWN)) ∧
    (close_implied_end_tags tb except).sink =
      sink_add_unrefs tb.sink
        (nodes_down tb.element_stack tb.current_node
          (tb.current_node - (close_implied_end_tags tb except).current_node)) := by
  obtain ⟨e1, e2, e3, _e4, e5, e6, e7, e8⟩ :=
    close_implied_go_spec except tb.current_node tb le_rfl h0
  refine ⟨e1, e2, e3, e5, ?_, ?_, e8⟩
  · intro i hi1 hi2
    exact ciet_eligible_true_elim except _ (e6 i hi1 hi2)
  · exact ciet_eligible_false_elim except _ e7

/-- Witness for C7 on the html/body/p/li stack with no except type. -/
theorem C7_close_implied_end_tags_spec_witness :
    (close_implied_end_tags wtb_implied UNKNOWN).current_node ≤
      wtb_implied.current_node :=
  (C7_close_implied_end_tags_spec wtb_implied UNKNOWN (by decide)).2.2.2.1

theorem clear_go_no_marker :
    ∀ (l : List fmt_entry) (s : Sink),
      (∀ e ∈ l, is_scoping_element e.type = false) →
      clear_go l s = ([], sink_add_unrefs s (l.map fmt_entry.node)) := by
  intro l
  induction l with
  | nil => intro s _; simp [clear_go, sink_add_unrefs]
  | cons e rest ih =>
    intro s h
    have he := h e (List.mem_cons_self e rest)
    have hrest : ∀ x ∈ rest, is_scoping_element x.type = false :=
      fun x hx => h x (List.mem_cons_of_mem e hx)
    simp only [clear_go, he]
    rw [ih (sink_unref s e.node) hrest]
    simp [sink_add_unrefs, sink_unref]

theorem clear_go_marker :
    ∀ (l : List fmt_entry) (s : Sink) (m : fmt_entry) (rest : List fmt_entry),
      (∀ e ∈ l, is_scoping_element e.type = false) →
      is_scoping_element m.type = true →
      clear_go (l ++ m :: rest) s =
        (rest, sink_add_unrefs s (l.map fmt_entry.node ++ [m.node])) := by
  intro l
  induction l with
  | nil =>
    intro s m rest _ hm
    simp [clear_go, hm, sink_add_unrefs, sink_unref]
  | cons e l2 ih =>
    intro s m rest h hm
    have he := h e (List.mem_cons_self e l2)
    have hl2 : ∀ x ∈ l2, is_scoping_element x.type = false :=
      fun x hx => h x (List.mem_cons_of_mem e hx)
    simp only [List.cons_append, clear_go, he, Bool.false_eq_true, if_false,
      List.append_eq]
    rw [ih (sink_unref s e.node) m rest hl2 hm]
    simp [sink_add_unrefs, sink_unref]

/-- C8: clear_active_formatting_list_to_marker removes entries from the
tail, sink-unreffing each removed node (tailmost first), up to and including
the first entry of scoping type (the marker), leaving the entries before the
marker unchanged; with no marker the whole list is emptied.  The stack and
its bookkeeping are untouched. -/
theorem C8_clear_to_marker_spec (tb : TB) :
    (clear_active_formatting_list_to_marker tb).element_stack =
      tb.element_stack ∧
    (clear_active_formatting_list_to_marker tb).current_node =
      tb.current_node ∧
    (clear_active_formatting_list_to_marker tb).current_table =
      tb.current_table ∧
    ((∀ e ∈ tb.formatting_list, is_scoping_element e.type = false) →
      (clear_active_formatting_list_to_marker tb).formatting_list = [] ∧
      (clear_active_formatting_list_to_marker tb).sink =
        sink_add_unrefs tb.sink
          (tb.formatting_list.reverse.map fmt_entry.node)) ∧
    (∀ pre m suf, tb.formatting_list = pre ++ m :: suf →
      is_scoping_element m.type = true →
      (∀ e ∈ suf, is_scoping_element e.type = false) →
      (clear_active_formatting_list_to_marker tb).formatting_list = pre ∧
      (clear_active_formatting_list_to_marker tb).sink =
        sink_add_unrefs tb.sink
          (suf.reverse.map fmt_entry.node ++ [m.node])) := by
  refine ⟨rfl, rfl, rfl, ?_, ?_⟩
  · intro h
    have h2 : ∀ e ∈ tb.formatting_list.reverse, is_scoping_element e.type = false :=
      fun e he => h e (List.mem_reverse.mp he)
    have h3 := clear_go_no_marker tb.formatting_list.reverse tb.sink h2
    constructor
    · simp [clear_active_formatting_list_to_marker, h3]
    · simp [clear_active_formatting_list_to_marker, h3]
  · intro pre m suf hsplit hm hsuf
    have h2 : ∀ e ∈ suf.reverse, is_scoping_element e.type = false :=
      fun e he => hsuf e (List.mem_reverse.mp he)
    have hrev : tb.formatting_list.reverse = suf.reverse ++ m :: pre.reverse := by
      rw [hsplit]
      simp
    have h3 := clear_go_marker suf.reverse tb.sink m pre.reverse h2 hm
    constructor
    · simp [clear_active_formatting_list_to_marker, hrev, h3]
    · simp [clear_active_formatting_list_to_marker, hrev, h3]

/-- Witness for C8 on a list stale-B, CAPTION marker, open FONT: the B entry
survives. -/
theorem C8_clear_to_marker_spec_witness :
    (clear_active_formatting_list_to_marker wtb_clear).formatting_list =
      [⟨1, B, 50, 0⟩] :=
  ((C8_clear_to_marker_spec wtb_clear).2.2.2.2 [⟨1, B, 50, 0⟩] ⟨1, CAPTION, 51, 1⟩
    [⟨1, FONT, 52, 2⟩] rfl (by decide) (by decide)).1

/-- The downward TABLE scan finds the largest TABLE index in [1, m], or 0
when there is none. -/
theorem stack_scan_table_spec (stack : Nat → element_context) :
    ∀ m, (stack_scan_table stack m = 0 ∧
            ∀ j, 1 ≤ j → j ≤ m → (stack j).type ≠ TABLE) ∨
         (1 ≤ stack_scan_table stack m ∧ stack_scan_table stack m ≤ m ∧
          (stack (stack_scan_table stack m)).type = TABLE ∧
          ∀ j, stack_scan_table stack m < j → j ≤ m →
            (stack j).type ≠ TABLE) := by
  intro m
  induction m with
  | zero =>
    left
    exact ⟨rfl, by intro j h1 h2; omega⟩
  | succ t ih =>
    by_cases h : (stack (t + 1)).type = TABLE
    · right
      have hval : stack_scan_table stack (t + 1) = t + 1 := by
        simp [stack_scan_table, h]
      rw [hval]
      exact ⟨by omega, le_rfl, h, by intro j h1 h2; omega⟩
    · have hval : stack_scan_table stack (t + 1) = stack_scan_table stack t := by
        simp [stack_scan_table, h]
      rw [hval]
      rcases ih with ⟨ha, hb⟩ | ⟨ha, hb, hc, hd⟩
      · left
        refine ⟨ha, ?_⟩
        intro j h1 h2
        by_cases hj : j = t + 1
        · rw [hj]; exact h
        · exact hb j h1 (by omega)
      · right
        refine ⟨ha, by omega, hc, ?_⟩
        intro j h1 h2
        by_cases hj : j = t + 1
        · rw [hj]; exact h
        · exact hd j h1 (by omega)

/-- Pushing preserves the current_table invariant. -/
theorem table_inv_push (tb : TB) (ns : Nat) (ty : element_type) (node : Nat)
    (h : table_inv tb) : table_inv (element_stack_push tb ns ty node).1 := by
  obtain ⟨h1, h2, h3⟩ := h
  by_cases hty : ty = TABLE
  · refine ⟨?_, Or.inr ⟨?_, ?_⟩, ?_⟩ <;>
      simp [element_stack_push, table_inv, hty]
    intro j hj1 hj2
    omega
  · have hct : (element_stack_push tb ns ty node).1.current_table =
        tb.current_table := by
      simp [element_stack_push, hty]
    have hcn : (element_stack_push tb ns ty node).1.current_node =
        tb.current_node + 1 := rfl
    have hst : ∀ j, j ≠ tb.current_node + 1 →
        (element_stack_push tb ns ty node).1.element_stack j =
          tb.element_stack j := by
      intro j hj
      simp [element_stack_push, hj]
    have hslot : (element_stack_push tb ns ty node).1.element_stack
        (tb.current_node + 1) = ⟨ns, ty, node⟩ := by
      simp [element_stack_push]
    refine ⟨?_, ?_, ?_⟩
    · rw [hct, hcn]; omega
    · rcases h2 with h2 | ⟨h2a, h2b⟩
      · left; rw [hct]; exact h2
      · right
        refine ⟨by rw [hct]; exact h2a, ?_⟩
        rw [hct, hst tb.current_table (by omega)]
        exact h2b
    · intro j hj1 hj2
      rw [hct] at hj1
      rw [hcn] at hj2
      by_cases hj : j = tb.current_node + 1
      · rw [hj, hslot]
        exact hty
      · rw [hst j hj]
        exact h3 j hj1 (by omega)

/-- Popping preserves the current_table invariant. -/
theorem table_inv_pop (tb : TB) (hcn : 1 ≤ tb.current_node)
    (h : table_inv tb) : table_inv (element_stack_pop tb).tb := by
  obtain ⟨h1, h2, h3⟩ := h
  by_cases htop : (tb.element_stack tb.current_node).type = TABLE
  · have hct : (element_stack_pop tb).tb.current_table =
        stack_scan_table tb.element_stack (tb.current_node - 1) := by
      simp [element_stack_pop, htop]
    rcases stack_scan_table_spec tb.element_stack (tb.current_node - 1) with
      ⟨ha, hb⟩ | ⟨ha, hb, hc, hd⟩
    · refine ⟨?_, Or.inl ?_, ?_⟩
      · rw [pop_cn, hct, ha]; omega
      · rw [hct, ha]
      · intro j hj1 hj2
        rw [pop_cn] at hj2
        rw [hct, ha] at hj1
        exact hb j (by omega) hj2
    · refine ⟨?_, Or.inr ⟨?_, ?_⟩, ?_⟩
      · rw [pop_cn, hct]; omega
      · rw [hct]; exact ha
      · rw [pop_stack, hct]; exact hc
      · intro j hj1 hj2
        rw [pop_cn] at hj2
        rw [hct] at hj1
        rw [pop_stack]
        exact hd j hj1 hj2
  · have hctne : tb.current_table ≠ tb.current_node := by
      intro he
      rcases h2 with h2 | ⟨_, h2b⟩
      · omega
      · rw [he] at h2b; exact htop h2b
    have hct : (element_stack_pop tb).tb.current_table = tb.current_table := by
      simp [element_stack_pop, htop]
    refine ⟨?_, ?_, ?_⟩
    · rw [pop_cn, hct]; omega
    · rw [hct, pop_stack]; exact h2
    · intro j hj1 hj2
      rw [pop_cn] at hj2
      rw [hct] at hj1
      rw [pop_stack]
      exact h3 j hj1 (by omega)

/-- C6: in every state reachable by pushes and pops, current_table is 0 or
the largest index of a TABLE frame; pushing a TABLE sets current_table to
the new top slot, and popping a TABLE resets it to the largest TABLE index
below, or 0 when no TABLE remains. -/
theorem C6_current_table_spec :
    (∀ tb, StackReach tb → table_inv tb) ∧
    (∀ tb ns node,
      (element_stack_push tb ns TABLE node).1.current_table =
        tb.current_node + 1) ∧
    (∀ tb, (tb.element_stack tb.current_node).type = TABLE →
      ((element_stack_pop tb).tb.current_table = 0 ∧
        ∀ j, 1 ≤ j → j ≤ tb.current_node - 1 →
          (tb.element_stack j).type ≠ TABLE) ∨
      (1 ≤ (element_stack_pop tb).tb.current_table ∧
       (element_stack_pop tb).tb.current_table ≤ tb.current_node - 1 ∧
       (tb.element_stack (element_stack_pop tb).tb.current_table).type = TABLE ∧
       ∀ j, (element_stack_pop tb).tb.current_table < j →
         j ≤ tb.current_node - 1 → (tb.element_stack j).type ≠ TABLE)) := by
  refine ⟨?_, ?_, ?_⟩
  · intro tb h
    induction h with
    | init =>
      refine ⟨le_rfl, Or.inl rfl, ?_⟩
      intro j h1 h2
      simp only [init_tb] at h1 h2
      omega
    | push tb2 ns ty node _ ih => exact table_inv_push tb2 ns ty node ih
    | pop tb2 _ hcn ih => exact table_inv_pop tb2 hcn ih
  · intro tb ns node
    simp [element_stack_push]
  · intro tb htop
    have hct : (element_stack_pop tb).tb.current_table =
        stack_scan_table tb.element_stack (tb.current_node - 1) := by
      simp [element_stack_pop, htop]
    rw [hct]
    exact stack_scan_table_spec tb.element_stack (tb.current_node - 1)

/-- Witness for C6: pushing a TABLE onto the initial state yields a state
satisfying the invariant. -/
theorem C6_current_table_spec_witness :
    table_inv (element_stack_push init_tb 1 TABLE 5).1 :=
  C6_current_table_spec.1 _ (StackReach.push init_tb 1 TABLE 5 StackReach.init)

theorem staleSplit_cons (e : fmt_entry) (rest : List fmt_entry) :
    staleSplit (e :: rest) =
      if ((staleSplit rest).1.isEmpty && is_stale e) = true
      then ([], e :: (staleSplit rest).2)
      else (e :: (staleSplit rest).1, (staleSplit rest).2) := rfl

theorem staleSplit_append (l : List fmt_entry) :
    (staleSplit l).1 ++ (staleSplit l).2 = l := by
  induction l with
  | nil => rfl
  | cons e rest ih =>
    simp only [staleSplit]
    by_cases h : ((staleSplit rest).1.isEmpty && is_stale e) = true
    · rw [if_pos h]
      have h1 : (staleSplit rest).1 = [] :=
        List.isEmpty_iff.mp ((Bool.and_eq_true _ _).mp h).1
      rw [h1] at ih
      simpa using ih
    · rw [if_neg h]
      simpa using ih

theorem staleSplit_suffix_stale (l : List fmt_entry) :
    ∀ e ∈ (staleSplit l).2, is_stale e = true := by
  induction l with
  | nil => intro e he; simp [staleSplit] at he
  | cons x rest ih =>
    intro e he
    simp only [staleSplit] at he
    by_cases h : ((staleSplit rest).1.isEmpty && is_stale x) = true
    · rw [if_pos h] at he
      rcases List.mem_cons.mp he with he | he
      · rw [he]; exact ((Bool.and_eq_true _ _).mp h).2
      · exact ih e he
    · rw [if_neg h] at he
      exact ih e he

theorem staleSplit_of_last_not_stale (l : List fmt_entry) (e : fmt_entry)
    (hl : l.getLast? = some e) (he : is_stale e = false) :
    (staleSplit l).2 = [] := by
  induction l with
  | nil => simp at hl
  | cons x rest ih =>
    cases rest with
    | nil =>
      simp only [List.getLast?_singleton, Option.some.injEq] at hl
      subst hl
      simp [staleSplit, he]
    | cons y rest2 =>
      have hl2 : (y :: rest2).getLast? = some e := by
        rw [List.getLast?_cons_cons] at hl
        exact hl
      have ih2 := ih hl2
      have hne : (staleSplit (y :: rest2)).1 ≠ [] := by
        intro hnil
        have happ := staleSplit_append (y :: rest2)
        rw [hnil, ih2] at happ
        simp at happ
      have hf : (staleSplit (y :: rest2)).1.isEmpty = false := by
        rcases hsp : (staleSplit (y :: rest2)).1 with _ | ⟨a, l2⟩
        · exact absurd hsp hne
        · rfl
      rw [staleSplit_cons, hf]
      simp [ih2]

theorem not_scoping_ne_table (t : element_type)
    (h : is_scoping_element t = false) : t ≠ TABLE := by
  intro he
  rw [he] at h
  exact absurd h (by decide)

/-- Field-level description of one reconstruction step. -/
theorem reconstruct_step_fields (tb : TB) (e : fmt_entry)
    (hs : is_scoping_element e.type = false) :
    (reconstruct_step tb e).2 =
      ⟨e.ns, e.type, tb.sink.next, tb.current_node + 1⟩ ∧
    (reconstruct_step tb e).1.current_node = tb.current_node + 1 ∧
    (reconstruct_step tb e).1.current_table = tb.current_table ∧
    (reconstruct_step tb e).1.formatting_list = tb.formatting_list ∧
    (reconstruct_step tb e).1.input_buffer = tb.input_buffer ∧
    (∀ j, j ≠ tb.current_node + 1 →
      (reconstruct_step tb e).1.element_stack j = tb.element_stack j) ∧
    (reconstruct_step tb e).1.element_stack (tb.current_node + 1) =
      ⟨e.ns, e.type, tb.sink.next⟩ ∧
    (reconstruct_step tb e).1.sink.next = tb.sink.next + 1 ∧
    (reconstruct_step tb e).1.sink.clones =
      tb.sink.clones ++ [(e.node, tb.sink.next)] ∧
    (reconstruct_step tb e).1.sink.appends = tb.sink.appends ++
      [((tb.element_stack tb.current_node).node, tb.sink.next)] ∧
    (reconstruct_step tb e).1.sink.unrefs = tb.sink.unrefs ++ [e.node] ∧
    (reconstruct_step tb e).1.sink.texts = tb.sink.texts := by
  have hT : e.type ≠ TABLE := not_scoping_ne_table e.type hs
  refine ⟨rfl, rfl, ?_, rfl, rfl, ?_, ?_, rfl, rfl, rfl, rfl, rfl⟩
  · simp [reconstruct_step, element_stack_push, sink_clone, sink_append_child,
      sink_unref, hT]
  · intro j hj
    simp [reconstruct_step, element_stack_push, sink_clone, sink_append_child,
      sink_unref, hj]
  · simp [reconstruct_step, element_stack_push, sink_clone, sink_append_child,
      sink_unref]

/-- Full characterisation of the forward reconstruction loop over a list of
non-marker entries. -/
theorem reconstruct_go_spec :
    ∀ (es : List fmt_entry) (tb : TB),
      (∀ e ∈ es, is_scoping_element e.type = false) →
      (reconstruct_go tb es).2 =
        recon_entries tb.sink.next tb.current_node es ∧
      (reconstruct_go tb es).1.current_node = tb.current_node + es.length ∧
      (reconstruct_go tb es).1.current_table = tb.current_table ∧
      (reconstruct_go tb es).1.formatting_list = tb.formatting_list ∧
      (reconstruct_go tb es).1.input_buffer = tb.input_buffer ∧
      (∀ j, j ≤ tb.current_node ∨ tb.current_node + es.length < j →
        (reconstruct_go tb es).1.element_stack j = tb.element_stack j) ∧
      (∀ j, tb.current_node < j → j ≤ tb.current_node + es.length →
        (reconstruct_go tb es).1.element_stack j =
          ⟨(es.getD (j - tb.current_node - 1) dflt_entry).ns,
           (es.getD (j - tb.current_node - 1) dflt_entry).type,
           tb.sink.next + (j - tb.current_node - 1)⟩) ∧
      (reconstruct_go tb es).1.sink.next = tb.sink.next + es.length ∧
      (reconstruct_go tb es).1.sink.clones =
        tb.sink.clones ++ recon_clones tb.sink.next es ∧
      (reconstruct_go tb es).1.sink.appends = tb.sink.appends ++
        recon_appends ((tb.element_stack tb.current_node).node)
          tb.sink.next es ∧
      (reconstruct_go tb es).1.sink.unrefs =
        tb.sink.unrefs ++ es.map fmt_entry.node ∧
      (reconstruct_go tb es).1.sink.texts = tb.sink.texts := by
  intro es
  induction es with
  | nil =>
    intro tb _
    refine ⟨rfl, by simp [reconstruct_go], rfl, rfl, rfl, fun j _ => rfl, ?_,
      by simp [reconstruct_go], by simp [reconstruct_go, recon_clones],
      by simp [reconstruct_go, recon_appends], by simp [reconstruct_go], rfl⟩
    intro j hj1 hj2
    simp only [List.length_nil, Nat.add_zero] at hj2
    omega
  | cons e rest ih =>
    intro tb hs
    have hse := hs e (List.mem_cons_self e rest)
    have hsr : ∀ x ∈ rest, is_scoping_element x.type = false :=
      fun x hx => hs x (List.mem_cons_of_mem e hx)
    obtain ⟨f1, f2, f3, f4, f5, f6, f7, f8, f9, f10, f11, f12⟩ :=
      reconstruct_step_fields tb e hse
    obtain ⟨g1, g2, g3, g4, g5, g6, g7, g8, g9, g10, g11, g12⟩ :=
      ih (reconstruct_step tb e).1 hsr
    have hgo1 : (reconstruct_go tb (e :: rest)).1 =
        (reconstruct_go (reconstruct_step tb e).1 rest).1 := rfl
    have hgo2 : (reconstruct_go tb (e :: rest)).2 =
        (reconstruct_step tb e).2 ::
          (reconstruct_go (reconstruct_step tb e).1 rest).2 := rfl
    rw [f2] at g2 g6 g7
    rw [f8] at g1 g7 g8 g9 g10
    refine ⟨?_, ?_, ?_, ?_, ?_, ?_, ?_, ?_, ?_, ?_, ?_, ?_⟩
    · rw [hgo2, f1, g1, f2]
      rfl
    · rw [hgo1, g2]
      simp only [List.length_cons]
      omega
    · rw [hgo1, g3, f3]
    · rw [hgo1, g4, f4]
    · rw [hgo1, g5, f5]
    · intro j hj
      rw [hgo1, g6 j (by simp only [List.length_cons] at hj; omega),
        f6 j (by simp only [List.length_cons] at hj; omega)]
    · intro j hj1 hj2
      simp only [List.length_cons] at hj2
      rw [hgo1]
      by_cases hj : j = tb.current_node + 1
      · rw [g6 j (Or.inl (by omega)), hj, f7]
        have hz : tb.current_node + 1 - tb.current_node - 1 = 0 := by omega
        rw [hz, List.getD_cons_zero]
        simp
      · have hja : tb.current_node + 1 < j := by omega
        have hjb : j ≤ tb.current_node + 1 + rest.length := by omega
        rw [g7 j hja hjb]
        have hk1 : j - (tb.current_node + 1) - 1 = j - tb.current_node - 2 := by
          omega
        have hk2 : j - tb.current_node - 1 = (j - tb.current_node - 2) + 1 := by
          omega
        rw [hk1, hk2, List.getD_cons_succ]
        have hk3 : tb.sink.next + 1 + (j - tb.current_node - 2) =
            tb.sink.next + (j - tb.current_node - 2 + 1) := by omega
        rw [hk3]
    · rw [hgo1, g8]
      simp only [List.length_cons]
      omega
    · rw [hgo1, g9, f9]
      simp only [recon_clones, List.append_assoc, List.singleton_append]
    · rw [hgo1, g10, f2, f7, f10]
      simp only [recon_appends, List.append_assoc, List.singleton_append]
    · rw [hgo1, g11, f11]
      simp only [List.map_cons, List.append_assoc, List.singleton_append]
    · rw [hgo1, g12, f12]

theorem stale_not_scoping (e : fmt_entry) (h : is_stale e = true) :
    is_scoping_element e.type = false := by
  unfold is_stale at h
  have h2 := ((Bool.and_eq_true _ _).mp h).1
  rwa [Bool.not_eq_true'] at h2

/-- C1: reconstruct_active_formatting_list is the identity when the
formatting list is empty or its tail entry is a marker or still open;
otherwise, writing the list as the part up to the last marker-or-open entry
followed by the maximal stale suffix, it clones (shallowly, through the
sink) exactly one node per stale entry, appends the first clone to the node
of the frame that was current and each further clone to the previous one,
pushes one new frame (ns, type, clone) per stale entry above the old top,
replaces each stale entry by (type, clone, index of the pushed frame), and
unrefs each replaced node exactly once; entries before the suffix are
untouched. -/
theorem C1_reconstruct_spec (tb : TB) :
    (tb.formatting_list = [] → reconstruct_active_formatting_list tb = tb) ∧
    (∀ e, tb.formatting_list.getLast? = some e → is_stale e = false →
      reconstruct_active_formatting_list tb = tb) ∧
    (∀ pre suf, staleSplit tb.formatting_list = (pre, suf) → suf ≠ [] →
      (reconstruct_active_formatting_list tb).formatting_list =
        pre ++ recon_entries tb.sink.next tb.current_node suf ∧
      (reconstruct_active_formatting_list tb).current_node =
        tb.current_node + suf.length ∧
      (reconstruct_active_formatting_list tb).current_table =
        tb.current_table ∧
      (∀ j, j ≤ tb.current_node ∨ tb.current_node + suf.length < j →
        (reconstruct_active_formatting_list tb).element_stack j =
          tb.element_stack j) ∧
      (∀ j, tb.current_node < j → j ≤ tb.current_node + suf.length →
        (reconstruct_active_formatting_list tb).element_stack j =
          ⟨(suf.getD (j - tb.current_node - 1) dflt_entry).ns,
           (suf.getD (j - tb.current_node - 1) dflt_entry).type,
           tb.sink.next + (j - tb.current_node - 1)⟩) ∧
      (reconstruct_active_formatting_list tb).sink.next =
        tb.sink.next + suf.length ∧
      (reconstruct_active_formatting_list tb).sink.clones =
        tb.sink.clones ++ recon_clones tb.sink.next suf ∧
      (reconstruct_active_formatting_list tb).sink.appends =
        tb.sink.appends ++
          recon_appends ((tb.element_stack tb.current_node).node)
            tb.sink.next suf ∧
      (reconstruct_active_formatting_list tb).sink.unrefs =
        tb.sink.unrefs ++ suf.map fmt_entry.node ∧
      (reconstruct_active_formatting_list tb).sink.texts =
        tb.sink.texts) := by
  refine ⟨?_, ?_, ?_⟩
  · intro h
    simp [reconstruct_active_formatting_list, h]
  · intro e hl he
    have h2 := staleSplit_of_last_not_stale tb.formatting_list e hl he
    by_cases hemp : tb.formatting_list.isEmpty
    · simp [reconstruct_active_formatting_list, hemp]
    · simp [reconstruct_active_formatting_list, hemp, h2]
  · intro pre suf hsp hsuf
    have hemp : tb.formatting_list.isEmpty = false := by
      rcases hl : tb.formatting_list with _ | ⟨x, rest⟩
      · rw [hl] at hsp
        have : suf = ([] : List fmt_entry) := by
          have h3 : (staleSplit ([] : List fmt_entry)).2 = [] := rfl
          rw [hsp] at h3
          exact h3
        exact absurd this hsuf
      · rfl
    have hstale : ∀ e ∈ suf, is_scoping_element e.type = false := by
      intro e he
      refine stale_not_scoping e (staleSplit_suffix_stale tb.formatting_list e ?_)
      rw [hsp]
      exact he
    have hred : reconstruct_active_formatting_list tb =
        { (reconstruct_go tb suf).1 with
            formatting_list := pre ++ (reconstruct_go tb suf).2 } := by
      unfold reconstruct_active_formatting_list
      rw [if_neg (by simp [hemp]), hsp]
      rw [if_neg (by simp [List.isEmpty_iff, hsuf])]
    obtain ⟨g1, g2, g3, g4, _g5, g6, g7, g8, g9, g10, g11, g12⟩ :=
      reconstruct_go_spec suf tb hstale
    rw [hred]
    refine ⟨?_, g2, g3, g6, g7, g8, g9, g10, g11, g12⟩
    show pre ++ (reconstruct_go tb suf).2 = _
    rw [g1]

/-- Witness for C1: one stale B entry over the html/body state is cloned
once. -/
theorem C1_reconstruct_spec_witness :
    (reconstruct_active_formatting_list wtb_fmt).formatting_list =
      [] ++ recon_entries wtb_fmt.sink.next wtb_fmt.current_node
        [⟨1, B, 50, 0⟩] :=
  ((C1_reconstruct_spec wtb_fmt).2.2 [] [⟨1, B, 50, 0⟩]
    (by decide) (by decide)).1

/-- entry_matches transfers to a state with the same live frames and a top
at least as high. -/
theorem entry_matches_of_fields {tb1 tb2 : TB} (e : fmt_entry)
    (hst : ∀ i, i ≤ tb1.current_node →
      tb2.element_stack i = tb1.element_stack i)
    (hcn : tb1.current_node ≤ tb2.current_node)
    (h : entry_matches tb1 e) : entry_matches tb2 e := by
  rcases h with h | ⟨h1, h2, h3, h4⟩
  · exact Or.inl h
  · right
    refine ⟨h1, le_trans h2 hcn, ?_, ?_⟩
    · rw [hst _ h2]; exact h3
    · rw [hst _ h2]; exact h4

theorem fmt_inv_push (tb : TB) (ns : Nat) (ty : element_type) (node : Nat)
    (h : fmt_inv tb) : fmt_inv (element_stack_push tb ns ty node).1 := by
  intro e he
  have he2 : e ∈ tb.formatting_list := he
  obtain ⟨hm, hl⟩ := h e he2
  refine ⟨entry_matches_of_fields e ?_ ?_ hm, hl⟩
  · intro i hi
    have hne : i ≠ tb.current_node + 1 := by omega
    simp [element_stack_push, hne]
  · show tb.current_node ≤ tb.current_node + 1
    omega

/-- The formatting list after a pop, by definition: invalidated exactly when
the popped type is formatting or scoping-but-not-HTML-and-not-TABLE. -/
theorem pop_fmt_list (tb : TB) :
    (element_stack_pop tb).tb.formatting_list =
      if (is_formatting_element ((tb.element_stack tb.current_node).type) ||
          (is_scoping_element ((tb.element_stack tb.current_node).type) &&
           decide ((tb.element_stack tb.current_node).type ≠ HTML) &&
           decide ((tb.element_stack tb.current_node).type ≠ TABLE))) = true
      then tb.formatting_list.map (fun e =>
        if e.stack_index = tb.current_node then { e with stack_index := 0 }
        else e)
      else tb.formatting_list := rfl

theorem fmt_inv_pop (tb : TB) (hcn : 1 ≤ tb.current_node)
    (h : fmt_inv tb) : fmt_inv (element_stack_pop tb).tb := by
  by_cases hcond :
      (is_formatting_element ((tb.element_stack tb.current_node).type) ||
        (is_scoping_element ((tb.element_stack tb.current_node).type) &&
         decide ((tb.element_stack tb.current_node).type ≠ HTML) &&
         decide ((tb.element_stack tb.current_node).type ≠ TABLE))) = true
  · have hfl : (element_stack_pop tb).tb.formatting_list =
        tb.formatting_list.map (fun e =>
          if e.stack_index = tb.current_node then { e with stack_index := 0 }
          else e) := by
      rw [pop_fmt_list, if_pos hcond]
    intro e' he'
    rw [hfl] at he'
    obtain ⟨e, he, rfl⟩ := List.mem_map.mp he'
    obtain ⟨hm, hl⟩ := h e he
    by_cases hidx : e.stack_index = tb.current_node
    · rw [if_pos hidx]
      exact ⟨Or.inl rfl, hl⟩
    · rw [if_neg hidx]
      refine ⟨?_, hl⟩
      rcases hm with hm | ⟨h1, h2, h3, h4⟩
      · exact Or.inl hm
      · right
        refine ⟨h1, by rw [pop_cn]; omega, ?_, ?_⟩
        · rw [pop_stack]; exact h3
        · rw [pop_stack]; exact h4
  · have hfl : (element_stack_pop tb).tb.formatting_list =
        tb.formatting_list := by
      rw [pop_fmt_list, if_neg hcond]
    intro e he
    rw [hfl] at he
    obtain ⟨hm, hl⟩ := h e he
    refine ⟨?_, hl⟩
    rcases hm with hm | ⟨h1, h2, h3, h4⟩
    · exact Or.inl hm
    · right
      by_cases hidx : e.stack_index = tb.current_node
      · exfalso
        have hty : (tb.element_stack tb.current_node).type = e.type := by
          rw [← hidx]; exact h3
        apply hcond
        rw [hty]
        rcases hl with hf | ⟨hs, hH, hT⟩
        · simp [hf]
        · simp [hs, hH, hT]
      · refine ⟨h1, by rw [pop_cn]; omega, ?_, ?_⟩
        · rw [pop_stack]; exact h3
        · rw [pop_stack]; exact h4

theorem fmt_inv_pop_until_go (ty : element_type) :
    ∀ (fuel : Nat) (tb : TB) (otype : element_type),
      fuel ≤ tb.current_node → fmt_inv tb →
      fmt_inv (pop_until_go ty fuel tb otype).1 := by
  intro fuel
  induction fuel with
  | zero =>
    intro tb otype _ h
    by_cases ho : otype = ty
    · simp only [pop_until_go, ho, if_pos]
      exact h
    · simp only [pop_until_go, if_neg ho]
      exact h
  | succ f ih =>
    intro tb otype hf h
    by_cases ho : otype = ty
    · simp only [pop_until_go, ho, if_pos]
      exact h
    · simp only [pop_until_go, if_neg ho]
      apply ih
      · show f ≤ tb.current_node - 1
        omega
      · exact fmt_inv_pop tb (by omega) h

theorem fmt_inv_pop_until (tb : TB) (ty : element_type)
    (h : fmt_inv tb) : fmt_inv (element_stack_pop_until tb ty).1 :=
  fmt_inv_pop_until_go ty tb.current_node tb UNKNOWN le_rfl h

theorem fmt_inv_append (tb : TB) (ns : Nat) (ty : element_type)
    (node idx : Nat) (hm : entry_matches tb ⟨ns, ty, node, idx⟩)
    (hl : entry_listable ⟨ns, ty, node, idx⟩) (h : fmt_inv tb) :
    fmt_inv (formatting_list_append tb ns ty node idx).1 := by
  intro e he
  have he2 : e ∈ tb.formatting_list ++ [⟨ns, ty, node, idx⟩] := he
  rcases List.mem_append.mp he2 with he3 | he3
  · exact h e he3
  · have he4 : e = ⟨ns, ty, node, idx⟩ := List.mem_singleton.mp he3
    rw [he4]
    exact ⟨hm, hl⟩

theorem fmt_inv_insert (tb : TB) (pos ns : Nat) (ty : element_type)
    (node idx : Nat) (hm : entry_matches tb ⟨ns, ty, node, idx⟩)
    (hl : entry_listable ⟨ns, ty, node, idx⟩) (h : fmt_inv tb) :
    fmt_inv (formatting_list_insert_at tb pos ns ty node idx).1 := by
  intro e he
  have he2 : e ∈ tb.formatting_list.take pos ++
      (⟨ns, ty, node, idx⟩ : fmt_entry) :: tb.formatting_list.drop pos := he
  rcases List.mem_append.mp he2 with he3 | he3
  · exact h e (List.take_subset pos tb.formatting_list he3)
  · rcases List.mem_cons.mp he3 with he4 | he4
    · rw [he4]; exact ⟨hm, hl⟩
    · exact h e (List.drop_subset pos tb.formatting_list he4)

theorem fmt_inv_remove (tb : TB) (pos : Nat) (h : fmt_inv tb) :
    fmt_inv (formatting_list_remove_at tb pos) := by
  intro e he
  have he2 : e ∈ tb.formatting_list.eraseIdx pos := he
  exact h e (List.eraseIdx_subset tb.formatting_list pos he2)

theorem fmt_inv_replace (tb : TB) (pos : Nat) (ty : element_type)
    (node idx : Nat) (hm : entry_matches tb ⟨0, ty, node, idx⟩)
    (hl : entry_listable ⟨0, ty, node, idx⟩) (h : fmt_inv tb) :
    fmt_inv (formatting_list_replace_at tb pos ty node idx) := by
  unfold formatting_list_replace_at
  cases hg : tb.formatting_list.get? pos with
  | none => exact h
  | some old =>
    intro e he
    have he2 : e ∈ tb.formatting_list.set pos
        { old with type := ty, node := node, stack_index := idx } := he
    rcases List.mem_or_eq_of_mem_set he2 with he3 | he3
    · exact h e he3
    · rw [he3]
      exact ⟨hm, hl⟩

theorem recon_entries_mem :
    ∀ (es : List fmt_entry) (x n : Nat) (e : fmt_entry),
      e ∈ recon_entries x n es →
      ∃ i, i < es.length ∧
        e = ⟨(es.getD i dflt_entry).ns, (es.getD i dflt_entry).type,
             x + i, n + i + 1⟩ := by
  intro es
  induction es with
  | nil => intro x n e he; simp [recon_entries] at he
  | cons a r ih =>
    intro x n e he
    rcases List.mem_cons.mp he with he2 | he2
    · refine ⟨0, by simp, ?_⟩
      rw [he2]
      simp
    · obtain ⟨i, hi, hee⟩ := ih (x + 1) (n + 1) e he2
      refine ⟨i + 1, by simp; omega, ?_⟩
      rw [hee, List.getD_cons_succ]
      have hx : x + 1 + i = x + (i + 1) := by omega
      have hn : n + 1 + i + 1 = n + (i + 1) + 1 := by omega
      rw [hx, hn]

theorem clear_go_subset :
    ∀ (l : List fmt_entry) (s : Sink), (clear_go l s).1 ⊆ l := by
  intro l
  induction l with
  | nil => intro s; simp [clear_go]
  | cons e rest ih =>
    intro s
    simp only [clear_go]
    by_cases h : is_scoping_element e.type = true
    · rw [if_pos h]
      exact List.subset_cons_of_subset e (fun x hx => hx)
    · rw [if_neg h]
      exact List.Subset.trans (ih (sink_unref s e.node))
        (List.subset_cons_of_subset e (fun x hx => hx))

theorem fmt_inv_clear (tb : TB) (h : fmt_inv tb) :
    fmt_inv (clear_active_formatting_list_to_marker tb) := by
  intro e he
  have he2 : e ∈ (clear_go tb.formatting_list.reverse tb.sink).1.reverse := he
  have he3 : e ∈ tb.formatting_list := by
    have := clear_go_subset tb.formatting_list.reverse tb.sink
      (List.mem_reverse.mp he2)
    exact List.mem_reverse.mp this
  exact h e he3

theorem fmt_inv_reconstruct (tb : TB) (h : fmt_inv tb) :
    fmt_inv (reconstruct_active_formatting_list tb) := by
  by_cases hemp : tb.formatting_list.isEmpty
  · have hid : reconstruct_active_formatting_list tb = tb := by
      simp [reconstruct_active_formatting_list, hemp]
    rw [hid]; exact h
  · by_cases hsuf : (staleSplit tb.formatting_list).2.isEmpty
    · have hid : reconstruct_active_formatting_list tb = tb := by
        unfold reconstruct_active_formatting_list
        rw [if_neg (by simp [hemp]), if_pos hsuf]
      rw [hid]; exact h
    · obtain ⟨pre2, suf2, hps⟩ : ∃ a b, staleSplit tb.formatting_list = (a, b) :=
        ⟨_, _, rfl⟩
      have hpre : (staleSplit tb.formatting_list).1 = pre2 := by rw [hps]
      have hsuf2 : (staleSplit tb.formatting_list).2 = suf2 := by rw [hps]
      have hsufne : suf2 ≠ [] := by
        intro hnil
        rw [hsuf2, hnil] at hsuf
        exact hsuf rfl
      have happ : pre2 ++ suf2 = tb.formatting_list := by
        rw [← hpre, ← hsuf2]
        exact staleSplit_append tb.formatting_list
      have hstale : ∀ e ∈ suf2, is_scoping_element e.type = false := by
        intro e he
        refine stale_not_scoping e (staleSplit_suffix_stale tb.formatting_list e ?_)
        rw [hsuf2]
        exact he
      have hred : reconstruct_active_formatting_list tb =
          { (reconstruct_go tb suf2).1 with
              formatting_list := pre2 ++ (reconstruct_go tb suf2).2 } := by
        unfold reconstruct_active_formatting_list
        rw [if_neg (by simp [hemp]), hps,
          if_neg (by simpa [List.isEmpty_iff] using hsufne)]
      obtain ⟨g1, g2, g3, _g4, _g5, g6, g7, g8, g9, g10, g11, g12⟩ :=
        reconstruct_go_spec suf2 tb hstale
      rw [hred]
      intro e he
      have he2 : e ∈ pre2 ++ (reconstruct_go tb suf2).2 := he
      rcases List.mem_append.mp he2 with he3 | he3
      · have he4 : e ∈ tb.formatting_list := by
          rw [← happ]
          exact List.mem_append.mpr (Or.inl he3)
        obtain ⟨hm, hl⟩ := h e he4
        refine ⟨?_, hl⟩
        apply entry_matches_of_fields e ?_ ?_ hm
        · intro i hi
          show (reconstruct_go tb suf2).1.element_stack i = tb.element_stack i
          exact g6 i (Or.inl hi)
        · show tb.current_node ≤ (reconstruct_go tb suf2).1.current_node
          rw [g2]; omega
      · rw [g1] at he3
        obtain ⟨i, hi, hee⟩ :=
          recon_entries_mem suf2 tb.sink.next tb.current_node e he3
        have hgd : suf2.getD i dflt_entry ∈ suf2 := by
          rw [List.getD_eq_getElem suf2 dflt_entry hi]
          exact List.getElem_mem _
        have hgd2 : suf2.getD i dflt_entry ∈ tb.formatting_list := by
          rw [← happ]
          exact List.mem_append.mpr (Or.inr hgd)
        have hl2 := (h _ hgd2).2
        refine ⟨Or.inr ⟨?_, ?_, ?_, ?_⟩, ?_⟩
        · rw [hee]
          show 1 ≤ tb.current_node + i + 1
          omega
        · rw [hee]
          show tb.current_node + i + 1 ≤ (reconstruct_go tb suf2).1.current_node
          rw [g2]; omega
        · rw [hee]
          show ((reconstruct_go tb suf2).1.element_stack
            (tb.current_node + i + 1)).type = (suf2.getD i dflt_entry).type
          rw [g7 (tb.current_node + i + 1) (by omega) (by omega)]
          have hidx : tb.current_node + i + 1 - tb.current_node - 1 = i := by
            omega
          rw [hidx]
        · rw [hee]
          show ((reconstruct_go tb suf2).1.element_stack
            (tb.current_node + i + 1)).node = tb.sink.next + i
          rw [g7 (tb.current_node + i + 1) (by omega) (by omega)]
          have hidx : tb.current_node + i + 1 - tb.current_node - 1 = i := by
            omega
          rw [hidx]
        · rw [hee]
          exact hl2

/-- C4: in every state reachable by the stack and formatting-list
operations, every formatting-list entry has stack_index 0 (stale) or its
stack_index designates a live frame of equal type and node;
and popping a formatting element, or a scoping element other than HTML and
TABLE, resets to 0 the stack_index of exactly the entries that referenced
the popped slot. -/
theorem C4_formatting_stack_index_inv :
    (∀ tb, TBReach tb → ∀ e ∈ tb.formatting_list, entry_matches tb e) ∧
    (∀ tb,
      (is_formatting_element ((tb.element_stack tb.current_node).type) ||
        (is_scoping_element ((tb.element_stack tb.current_node).type) &&
         decide ((tb.element_stack tb.current_node).type ≠ HTML) &&
         decide ((tb.element_stack tb.current_node).type ≠ TABLE))) = true →
      (element_stack_pop tb).tb.formatting_list =
        tb.formatting_list.map (fun e =>
          if e.stack_index = tb.current_node then { e with stack_index := 0 }
          else e)) := by
  constructor
  · have main : ∀ tb, TBReach tb → fmt_inv tb := by
      intro tb h
      induction h with
      | init => intro e he; simp [init_tb] at he
      | push tb2 ns ty node _ ih => exact fmt_inv_push tb2 ns ty node ih
      | pop tb2 _ hcn ih => exact fmt_inv_pop tb2 hcn ih
      | pop_until tb2 ty _ ih => exact fmt_inv_pop_until tb2 ty ih
      | fmt_append tb2 ns ty node idx _ hm hl ih =>
        exact fmt_inv_append tb2 ns ty node idx hm hl ih
      | fmt_insert tb2 pos ns ty node idx _ hm hl ih =>
        exact fmt_inv_insert tb2 pos ns ty node idx hm hl ih
      | fmt_remove tb2 pos _ ih => exact fmt_inv_remove tb2 pos ih
      | fmt_replace tb2 pos ty node idx _ hm hl ih =>
        exact fmt_inv_replace tb2 pos ty node idx hm hl ih
      | reconstruct tb2 _ ih => exact fmt_inv_reconstruct tb2 ih
      | clear tb2 _ ih => exact fmt_inv_clear tb2 ih
    intro tb h e he
    exact (main tb h e he).1
  · intro tb hcond
    rw [pop_fmt_list, if_pos hcond]

/-- Witness for C4: push a B, then append the matching formatting entry; the
invariant holds of the entry. -/
theorem C4_formatting_stack_index_inv_witness :
    entry_matches
      (formatting_list_append (element_stack_push init_tb 1 B 5).1 1 B 5 1).1
      ⟨1, B, 5, 1⟩ :=
  C4_formatting_stack_index_inv.1 _
    (TBReach.fmt_append (element_stack_push init_tb 1 B 5).1 1 B 5 1
      (TBReach.push init_tb 1 B 5 TBReach.init)
      (Or.inr ⟨by decide, by decide, by decide, by decide⟩)
      (Or.inl (by decide)))
    ⟨1, B, 5, 1⟩ (by decide)

end Hubbub
